import Mathlib

/-!
Verification of the dependency-gated task graph in `types/dag.go` of the
pizza-order-dag-demo repository.

Shallow embedding conventions:
* `ComponentType` is a string id, exactly as in Go (`type ComponentType string`).
* `ComponentState` is the three-constant enumeration
  `NEEDS_INIT` (Blocked), `INCOMPLETE` (Ready), `COMPLETED` (Done).
* Timestamps (`time.Time`) become `Nat`; the ambient `time.Now()` calls in
  `CompleteComponent` / `updateDependentComponents` become an explicit `now`
  argument threaded into each call.
* Go's in-place pointer mutations of the `components` slice become explicit
  state passing: each operation returns the new `DAG` value.
* The recursive DFS `hasCycle` is embedded with an explicit fuel parameter;
  `validateNoCycles` runs it with fuel `cycleFuel d` and we prove that this
  fuel is never exhausted, which is the termination argument for the Go
  recursion.
-/

namespace PizzaDag

/-- `ComponentState` from `types/component.go`: the three lifecycle states
`NEEDS_INIT` (Blocked), `INCOMPLETE` (Ready), `COMPLETED` (Done). -/
inductive ComponentState where
  | needsInit
  | incomplete
  | completed
deriving DecidableEq, Repr

/-- `ComponentType` from `types/component.go` is a string id. -/
abbrev ComponentType := String

/-- `Component` from `types/component.go`: one step of the order, with its
state, fixed dependency list and timestamps (`CompleteTime` is a nullable
pointer in Go, hence `Option`). -/
structure Component where
  type : ComponentType
  state : ComponentState
  dependsOn : List ComponentType
  updateTime : Nat
  completeTime : Option Nat
deriving DecidableEq, Repr

/-- `DAG` from `types/dag.go`: an ordered collection of components. -/
structure DAG where
  components : List Component
deriving DecidableEq, Repr

/-- `DAG.GetComponent`: scan the components in declaration order and return
the first one whose `Type` matches; `nil, error` becomes `none`. -/
def getComponent (d : DAG) (t : ComponentType) : Option Component :=
  d.components.find? (fun c => c.type == t)

/-- `DAG.GetNextComponent`: the first component (in declaration order) whose
state is `INCOMPLETE`, or `none`. -/
def getNextComponent (d : DAG) : Option Component :=
  d.components.find? (fun c => c.state == ComponentState.incomplete)

/-- `DAG.AllComponentsCompleted`: true iff every component is `COMPLETED`. -/
def allComponentsCompleted (d : DAG) : Bool :=
  d.components.all (fun c => c.state == ComponentState.completed)

/-- The inner dependency test of `updateDependentComponents`: every entry of
`deps` must resolve via `GetComponent` to a `COMPLETED` component (a failed
lookup counts as not complete, exactly as the Go `err != nil ||` test). -/
def allDepsComplete (comps : List Component) (deps : List ComponentType) : Bool :=
  deps.all (fun u =>
    match comps.find? (fun c => c.type == u) with
    | some dep => dep.state == ComponentState.completed
    | none => false)

/-- The state/timestamp write performed on a Blocked component whose
dependencies are all complete: move it to `INCOMPLETE` and stamp
`UpdateTime`. -/
def promote (now : Nat) (c : Component) : Component :=
  { c with state := ComponentState.incomplete, updateTime := now }

/-- One iteration of the `updateDependentComponents` loop, at position `i` of
the (partially updated) component list: if the component is `NEEDS_INIT` and
all its dependencies are complete in the current list, promote it in place. -/
def updStep (now : Nat) (comps : List Component) (i : Nat) : List Component :=
  match comps[i]? with
  | none => comps
  | some c =>
      if c.state = ComponentState.needsInit ∧ allDepsComplete comps c.dependsOn then
        comps.set i (promote now c)
      else comps

/-- The `updateDependentComponents` scan, generalised to visit positions in an
arbitrary order `order`; the Go loop is the special case
`order = List.range comps.length`.  Each visit sees the partially updated
list, exactly as the Go loop does through the shared slice. -/
def updIndices (now : Nat) (comps : List Component) (order : List Nat) : List Component :=
  order.foldl (fun cs i => updStep now cs i) comps

/-- `DAG.updateDependentComponents`: scan every component in declaration
order and move each `NEEDS_INIT` component whose dependencies are all
complete to `INCOMPLETE`. -/
def updateDependentComponents (d : DAG) (now : Nat) : DAG :=
  ⟨updIndices now d.components (List.range d.components.length)⟩

/-- Replace the first component with type `t` by `f` of it (the effect of
mutating through the pointer returned by `GetComponent`). -/
def setFirst (comps : List Component) (t : ComponentType) (f : Component → Component) :
    List Component :=
  match comps with
  | [] => []
  | c :: rest => if c.type == t then f c :: rest else c :: setFirst rest t f

/-- The direct effect of a successful `CompleteComponent`, before propagation:
the first component of type `t` is marked `COMPLETED` with both timestamps
stamped to `now`. -/
def markDone (d : DAG) (t : ComponentType) (now : Nat) : DAG :=
  ⟨setFirst d.components t (fun c =>
    { c with state := ComponentState.completed,
             completeTime := some now, updateTime := now })⟩

/-- The two error cases of `CompleteComponent` (`fmt.Errorf` values in Go):
an unknown component, or a component not currently `INCOMPLETE`. -/
inductive CompleteError where
  | notFound
  | invalidTransition
deriving DecidableEq, Repr

/-- `DAG.CompleteComponent`: returns the error (if any) together with the
resulting graph (Go mutates in place; the error paths perform no mutation,
so they return the input graph unchanged). -/
def completeComponent (d : DAG) (t : ComponentType) (now : Nat) :
    Option CompleteError × DAG :=
  match getComponent d t with
  | none => (some CompleteError.notFound, d)
  | some c =>
      if c.state = ComponentState.incomplete then
        (none, updateDependentComponents (markDone d t now) now)
      else
        (some CompleteError.invalidTransition, d)

/-- All component types mentioned anywhere in the graph: every component's
own type together with every entry of every dependency list.  The DFS of
`hasCycle` only ever visits types in this list, which bounds its recursion
depth. -/
def mentioned (d : DAG) : List ComponentType :=
  d.components.map (fun c => c.type) ++
    (d.components.map (fun c => c.dependsOn)).foldr (· ++ ·) []

/-- Fuel bound used to run the embedded DFS: one unit per distinct mentioned
type, plus one.  `validateNoCycles_ne_none` proves this fuel is never
exhausted, i.e. the Go recursion terminates. -/
def cycleFuel (d : DAG) : Nat :=
  (mentioned d).dedup.length + 1

/-- The `for _, depType := range component.DependsOn` loop of `hasCycle`,
parameterised by the recursive call `next`: an unvisited dependency is
explored recursively; a visited dependency still on the recursion stack is a
back edge, i.e. a cycle. -/
def hasCycleDepsGo
    (next : ComponentType → List ComponentType → List ComponentType →
      Option (Bool × List ComponentType × List ComponentType)) :
    List ComponentType → List ComponentType → List ComponentType →
    Option (Bool × List ComponentType × List ComponentType)
  | [], vis, rec => some (false, vis, rec)
  | u :: rest, vis, rec =>
      if u ∈ vis then
        if u ∈ rec then some (true, vis, rec)
        else hasCycleDepsGo next rest vis rec
      else
        match next u vis rec with
        | none => none
        | some (true, v, r) => some (true, v, r)
        | some (false, v, r) => hasCycleDepsGo next rest v r

/-- `DAG.hasCycle` from `types/dag.go`, fuel-indexed.  The two Go maps
`visited` and `recStack` become membership lists threaded through the
recursion.  Faithfully to the source, when `GetComponent` fails the function
returns `false` *without* removing `t` from `recStack`. -/
def hasCycleF (fuel : Nat) (d : DAG) (t : ComponentType)
    (vis rec : List ComponentType) :
    Option (Bool × List ComponentType × List ComponentType) :=
  match fuel with
  | 0 => none
  | fuel + 1 =>
      let vis' := vis.insert t
      let rec' := rec.insert t
      match getComponent d t with
      | none => some (false, vis', rec')
      | some c =>
          match hasCycleDepsGo (fun u v r => hasCycleF fuel d u v r)
              c.dependsOn vis' rec' with
          | none => none
          | some (true, v, r) => some (true, v, r)
          | some (false, v, r) => some (false, v, r.erase t)

/-- The dependency loop at a given fuel level. -/
def hasCycleDepsF (fuel : Nat) (d : DAG) (deps : List ComponentType)
    (vis rec : List ComponentType) :
    Option (Bool × List ComponentType × List ComponentType) :=
  hasCycleDepsGo (fun u v r => hasCycleF fuel d u v r) deps vis rec

/-- The root loop of `DAG.validateNoCycles`: start a DFS from every
component's type that is not yet visited, threading the two maps through;
report a cycle as soon as one DFS does. -/
def validateRootsF (fuel : Nat) (d : DAG) (cs : List Component)
    (vis rec : List ComponentType) : Option Bool :=
  match cs with
  | [] => some false
  | c :: rest =>
      if c.type ∈ vis then validateRootsF fuel d rest vis rec
      else
        match hasCycleF fuel d c.type vis rec with
        | none => none
        | some (true, _, _) => some true
        | some (false, v, r) => validateRootsF fuel d rest v r

/-- `DAG.validateNoCycles`: `some true` = "cycle detected in DAG" error,
`some false` = no error; `none` = fuel exhausted (provably impossible, see
`validateNoCycles_ne_none`). -/
def validateNoCycles (d : DAG) : Option Bool :=
  validateRootsF (cycleFuel d) d d.components [] []

/-- The error message of `validateNoCycles`. -/
def cycleErrorMsg : String := "cycle detected in DAG"

/-- `NewDAG`: wrap the components and run the cycle validation; this is the
*only* check construction performs.  The impossible fuel-exhaustion branch
is mapped to the same error (it is dead by `validateNoCycles_ne_none`). -/
def NewDAG (comps : List Component) : Except String DAG :=
  match validateNoCycles ⟨comps⟩ with
  | some false => Except.ok ⟨comps⟩
  | some true => Except.error cycleErrorMsg
  | none => Except.error cycleErrorMsg

/-- The five pizza component types. -/
def paymentT : ComponentType := "PAYMENT"

/-- `MAKE_DOUGH`. -/
def makeDoughT : ComponentType := "MAKE_DOUGH"

/-- `ADD_TOPPINGS`. -/
def addToppingsT : ComponentType := "ADD_TOPPINGS"

/-- `BAKE_PIZZA`. -/
def bakePizzaT : ComponentType := "BAKE_PIZZA"

/-- `DELIVER`. -/
def deliverT : ComponentType := "DELIVER"

/-- The literal component list built by `NewPizzaOrderDAG` (states and
dependencies are written out by hand in the Go source; `now` is the single
`time.Now()` taken at the top). -/
def pizzaComponents (now : Nat) : List Component :=
  [ { type := paymentT, state := ComponentState.incomplete,
      dependsOn := [], updateTime := now, completeTime := none },
    { type := makeDoughT, state := ComponentState.needsInit,
      dependsOn := [paymentT], updateTime := now, completeTime := none },
    { type := addToppingsT, state := ComponentState.needsInit,
      dependsOn := [makeDoughT], updateTime := now, completeTime := none },
    { type := bakePizzaT, state := ComponentState.needsInit,
      dependsOn := [addToppingsT], updateTime := now, completeTime := none },
    { type := deliverT, state := ComponentState.needsInit,
      dependsOn := [bakePizzaT], updateTime := now, completeTime := none } ]

/-- `NewPizzaOrderDAG`: build the default graph via `NewDAG`, discarding the
error (the Go source writes `dag, _ := NewDAG(components)`; the error branch
is dead because the chain is acyclic). -/
def newPizzaOrderDAG (now : Nat) : DAG :=
  match NewDAG (pizzaComponents now) with
  | Except.ok d => d
  | Except.error _ => ⟨[]⟩

/-- `DAG.MarshalJSON` serialises exactly the components array, in declaration
order; the snapshot record list is therefore the component list itself. -/
def snapshot (d : DAG) : List Component :=
  d.components

/-- `restoreOk` holds when the record list passes the structural integrity
checks: unique ids and every dependency resolving to a record. -/
def restoreOk (records : List Component) : Prop :=
  (records.map (fun c => c.type)).Nodup ∧
    ∀ c ∈ records, ∀ u ∈ c.dependsOn,
      (getComponent ⟨records⟩ u).isSome = true

instance (records : List Component) : Decidable (restoreOk records) := by
  unfold restoreOk; infer_instance

/-- Modelled from the spec: `Restore(records)` is not part of `types/dag.go`
(deserialisation is performed by the durable-execution host); per §4.4 of the
specification it reconstructs a Graph with exactly the recorded per-step
state, dependency lists and timestamps, re-checking only unique-id and
reference integrity and failing with `CorruptSnapshot` when they are
violated. -/
def restore (records : List Component) : Except String DAG :=
  if restoreOk records then Except.ok ⟨records⟩
  else Except.error "CorruptSnapshot"

/-- The dependency relation the validator traverses: `Rdep d t u` iff the
component `GetComponent` resolves for `t` lists `u` among its dependencies.
(For duplicated types this is the first occurrence — the only one the code
ever reads.) -/
def depsOf (d : DAG) (t : ComponentType) : List ComponentType :=
  match getComponent d t with
  | some c => c.dependsOn
  | none => []

/-- The edge relation of the graph, as read by the code. -/
def Rdep (d : DAG) (t u : ComponentType) : Prop :=
  u ∈ depsOf d t

/-- A graph is cyclic when some type reaches itself through at least one
dependency edge. -/
def Cyclic (d : DAG) : Prop :=
  ∃ z, Relation.TransGen (Rdep d) z z

/-- Every dependency entry of every component resolves via `GetComponent`. -/
def Resolved (d : DAG) : Prop :=
  ∀ c ∈ d.components, ∀ u ∈ c.dependsOn, (getComponent d u).isSome = true

instance (d : DAG) : Decidable (Resolved d) := by
  unfold Resolved; infer_instance

/-! ## Propagation: pointwise characterisation of the scan -/

/-- The per-dependency observation the scan makes: does the type-`u` lookup
yield a `COMPLETED` component? -/
def depDone (comps : List Component) (u : ComponentType) : Bool :=
  match comps.find? (fun c => c.type == u) with
  | some dep => dep.state == ComponentState.completed
  | none => false

theorem allDepsComplete_eq (comps : List Component) (deps : List ComponentType) :
    allDepsComplete comps deps = deps.all (depDone comps) := rfl

/-- What the whole scan does to one component, as a pure function of the
pre-scan component list `comps0`: a Blocked component whose dependencies are
all complete is promoted, everything else is untouched. -/
def targetOf (comps0 : List Component) (now : Nat) (c : Component) : Component :=
  if c.state = ComponentState.needsInit ∧ allDepsComplete comps0 c.dependsOn = true then
    promote now c
  else c

/-- The relation between a pre-scan component and its mid-scan version:
either untouched, or promoted from `NEEDS_INIT`. -/
def PromoRel (now : Nat) (c c' : Component) : Prop :=
  c' = c ∨ (c.state = ComponentState.needsInit ∧ c' = promote now c)

/-- A mid-scan component list is pointwise `PromoRel`-related to the
pre-scan list. -/
def PromoEq (now : Nat) (l₀ l : List Component) : Prop :=
  List.Forall₂ (PromoRel now) l₀ l

theorem PromoRel.type_eq {now : Nat} {c c' : Component} (h : PromoRel now c c') :
    c'.type = c.type := by
  rcases h with h | ⟨_, h⟩ <;> subst h <;> rfl

theorem PromoRel.completed_eq {now : Nat} {c c' : Component} (h : PromoRel now c c') :
    (c'.state == ComponentState.completed) = (c.state == ComponentState.completed) := by
  rcases h with h | ⟨hs, h⟩
  · subst h; rfl
  · subst h; rw [hs]; rfl

theorem PromoEq.refl (now : Nat) (l : List Component) : PromoEq now l l := by
  induction l with
  | nil => exact List.Forall₂.nil
  | cons c rest ih => exact List.Forall₂.cons (Or.inl rfl) ih

/-- Promotions never create or destroy `COMPLETED` components, so the
per-dependency observation is invariant across the scan. -/
theorem depDone_of_promoEq {now : Nat} {l₀ l : List Component}
    (h : PromoEq now l₀ l) (u : ComponentType) : depDone l u = depDone l₀ u := by
  induction h with
  | nil => rfl
  | cons hab htl ih =>
      rename_i a b l₀' l'
      by_cases hu : (a.type == u) = true
      · have hb : (b.type == u) = true := by rw [hab.type_eq]; exact hu
        simp only [depDone, List.find?_cons, hu, hb]
        exact hab.completed_eq
      · have hb : (b.type == u) = false := by
          rw [Bool.eq_false_iff]
          intro hc
          rw [hab.type_eq] at hc
          exact hu hc
        simp only [depDone, List.find?_cons, hu, hb, Bool.false_eq_true, if_false] at *
        exact ih

theorem allDepsComplete_of_promoEq {now : Nat} {l₀ l : List Component}
    (h : PromoEq now l₀ l) (deps : List ComponentType) :
    allDepsComplete l deps = allDepsComplete l₀ deps := by
  rw [allDepsComplete_eq, allDepsComplete_eq]
  have : depDone l = depDone l₀ := funext (depDone_of_promoEq h)
  rw [this]

theorem PromoEq.set {now : Nat} {l₀ l : List Component}
    (h : PromoEq now l₀ l) :
    ∀ {i : Nat} {c : Component}, l₀[i]? = some c →
      c.state = ComponentState.needsInit →
      PromoEq now l₀ (l.set i (promote now c)) := by
  induction h with
  | nil => intro i c hc _; simp at hc
  | cons hab htl ih =>
      intro i c hc hstate
      match i with
      | 0 =>
          simp only [List.getElem?_cons_zero, Option.some.injEq] at hc
          subst hc
          exact List.Forall₂.cons (Or.inr ⟨hstate, rfl⟩) htl
      | i + 1 =>
          simp only [List.getElem?_cons_succ] at hc
          exact List.Forall₂.cons hab (ih hc hstate)

theorem PromoEq.length_eq {now : Nat} {l₀ l : List Component}
    (h : PromoEq now l₀ l) : l₀.length = l.length :=
  List.Forall₂.length_eq h

/-- Main scan lemma: visiting any duplicate-free set of positions, starting
from any partially updated list that still agrees with the pre-scan list on
the unvisited positions and already matches the final answer elsewhere,
lands exactly on the pointwise `targetOf` image of the pre-scan list. -/
theorem updIndices_eq_map (now : Nat) (comps0 : List Component) :
    ∀ (order : List Nat) (comps : List Component),
      PromoEq now comps0 comps →
      order.Nodup →
      (∀ j ∈ order, comps[j]? = comps0[j]?) →
      (∀ j : Nat, j ∉ order → comps[j]? = (comps0.map (targetOf comps0 now))[j]?) →
      updIndices now comps order = comps0.map (targetOf comps0 now) := by
  intro order
  induction order with
  | nil =>
      intro comps _ _ _ hout
      exact List.ext_getElem? fun j => hout j (by simp)
  | cons i rest ih =>
      intro comps hpromo hnodup hin hout
      have hnodup' : rest.Nodup := (List.nodup_cons.mp hnodup).2
      have hi_not_rest : i ∉ rest := (List.nodup_cons.mp hnodup).1
      have hieq : comps[i]? = comps0[i]? := hin i (List.mem_cons_self i rest)
      show updIndices now (updStep now comps i) rest = _
      rcases hc : comps[i]? with _ | c
      · -- position `i` is out of range: the step is a no-op
        have hstep : updStep now comps i = comps := by
          simp [updStep, hc]
        rw [hstep]
        refine ih comps hpromo hnodup' (fun j hj => hin j (List.mem_cons_of_mem _ hj)) ?_
        intro j hj
        by_cases hji : j = i
        · subst hji
          have h0 : comps0[j]? = none := by rw [← hieq]; exact hc
          have hge : comps0.length ≤ j := List.getElem?_eq_none_iff.mp h0
          have hmap : (comps0.map (targetOf comps0 now))[j]? = none := by
            rw [List.getElem?_eq_none_iff, List.length_map]
            exact hge
          rw [hc, hmap]
        · exact hout j (fun hmem => by
            rcases List.mem_cons.mp hmem with h | h
            · exact hji h
            · exact hj h)
      · -- position `i` holds component `c`, identical in `comps0`
        have hc0 : comps0[i]? = some c := by rw [← hieq, hc]
        have hlt0 : i < comps0.length := by
          by_contra hge
          rw [List.getElem?_eq_none (Nat.le_of_not_lt hge)] at hc0
          exact Option.noConfusion hc0
        have hlt : i < comps.length := by
          rw [← hpromo.length_eq]; exact hlt0
        have hcond_eq : allDepsComplete comps c.dependsOn
            = allDepsComplete comps0 c.dependsOn :=
          allDepsComplete_of_promoEq hpromo c.dependsOn
        have htarget : (comps0.map (targetOf comps0 now))[i]?
            = some (targetOf comps0 now c) := by
          rw [List.getElem?_map, hc0]
          rfl
        by_cases hcond : c.state = ComponentState.needsInit
            ∧ allDepsComplete comps0 c.dependsOn = true
        · -- the component is promoted
          have hstep : updStep now comps i = comps.set i (promote now c) := by
            simp only [updStep, hc, hcond_eq]
            rw [if_pos hcond]
          rw [hstep]
          refine ih _ (hpromo.set hc0 hcond.1) hnodup' ?_ ?_
          · intro j hj
            have hji : i ≠ j := fun h => hi_not_rest (h ▸ hj)
            rw [List.getElem?_set_ne hji]
            exact hin j (List.mem_cons_of_mem _ hj)
          · intro j hj
            by_cases hji : j = i
            · subst hji
              rw [List.getElem?_set_self hlt, htarget]
              have : targetOf comps0 now c = promote now c := by
                unfold targetOf
                rw [if_pos hcond]
              rw [this]
            · rw [List.getElem?_set_ne (fun h => hji h.symm)]
              exact hout j (fun hmem => by
                rcases List.mem_cons.mp hmem with h | h
                · exact hji h
                · exact hj h)
        · -- the component is left untouched
          have hstep : updStep now comps i = comps := by
            simp only [updStep, hc, hcond_eq]
            rw [if_neg hcond]
          rw [hstep]
          refine ih comps hpromo hnodup' (fun j hj => hin j (List.mem_cons_of_mem _ hj)) ?_
          intro j hj
          by_cases hji : j = i
          · subst hji
            rw [hc, htarget]
            have : targetOf comps0 now c = c := by
              unfold targetOf
              rw [if_neg hcond]
            rw [this]
          · exact hout j (fun hmem => by
              rcases List.mem_cons.mp hmem with h | h
              · exact hji h
              · exact hj h)

/-- Any scan order that visits every position exactly once produces the
pointwise `targetOf` image of the pre-scan list. -/
theorem updIndices_perm_eq_map (now : Nat) (comps0 : List Component)
    (order : List Nat) (hperm : order.Perm (List.range comps0.length)) :
    updIndices now comps0 order = comps0.map (targetOf comps0 now) := by
  refine updIndices_eq_map now comps0 order comps0 (PromoEq.refl now comps0)
    (hperm.nodup_iff.mpr (List.nodup_range _)) (fun j _ => rfl) ?_
  intro j hj
  have hjr : j ∉ List.range comps0.length := fun h => hj (hperm.mem_iff.mpr h)
  have hge : comps0.length ≤ j := by
    by_contra hlt
    exact hjr (List.mem_range.mpr (Nat.lt_of_not_le hlt))
  rw [List.getElem?_eq_none hge, List.getElem?_eq_none (by simpa using hge)]

/-- The scan performed by `updateDependentComponents` (declaration order) is
the pointwise `targetOf` image. -/
theorem updateDependentComponents_eq_map (d : DAG) (now : Nat) :
    (updateDependentComponents d now).components
      = d.components.map (targetOf d.components now) :=
  updIndices_perm_eq_map now d.components _ (List.Perm.refl _)

/-! ## `setFirst` characterisation and shape preservation -/

theorem setFirst_length (comps : List Component) (t : ComponentType)
    (f : Component → Component) : (setFirst comps t f).length = comps.length := by
  induction comps with
  | nil => rfl
  | cons c rest ih =>
      unfold setFirst
      by_cases h : (c.type == t) = true
      · rw [if_pos h]; rfl
      · rw [if_neg h]
        simp only [List.length_cons, ih]

theorem find?_type_cons_pos {c : Component} {rest : List Component}
    {t : ComponentType} (h0 : (c.type == t) = true) :
    (c :: rest).find? (fun x => x.type == t) = some c := by
  simp only [List.find?_cons, h0]

theorem find?_type_cons_neg {c : Component} {rest : List Component}
    {t : ComponentType} (h0 : (c.type == t) = false) :
    (c :: rest).find? (fun x => x.type == t)
      = rest.find? (fun x => x.type == t) := by
  simp only [List.find?_cons, h0]

theorem setFirst_of_find?_none {comps : List Component} {t : ComponentType}
    (f : Component → Component)
    (h : comps.find? (fun c => c.type == t) = none) : setFirst comps t f = comps := by
  induction comps with
  | nil => rfl
  | cons c rest ih =>
      unfold setFirst
      by_cases h0 : (c.type == t) = true
      · rw [find?_type_cons_pos h0] at h; exact Option.noConfusion h
      · rw [find?_type_cons_neg (Bool.eq_false_iff.mpr h0)] at h
        rw [if_neg h0, ih h]

theorem setFirst_spec {comps : List Component} {t : ComponentType} {c : Component}
    (f : Component → Component)
    (h : comps.find? (fun x => x.type == t) = some c) :
    ∃ i : Nat, comps[i]? = some c ∧ (c.type == t) = true ∧
      (∀ j : Nat, j < i → ∀ cj : Component, comps[j]? = some cj →
        (cj.type == t) = false) ∧
      (setFirst comps t f)[i]? = some (f c) ∧
      (∀ j : Nat, j ≠ i → (setFirst comps t f)[j]? = comps[j]?) := by
  induction comps generalizing c with
  | nil => exact Option.noConfusion h
  | cons c0 rest ih =>
      by_cases h0 : (c0.type == t) = true
      · rw [find?_type_cons_pos h0] at h
        obtain rfl : c0 = c := Option.some.inj h
        refine ⟨0, by simp, h0, fun j hj => absurd hj (Nat.not_lt_zero j), ?_, ?_⟩
        · unfold setFirst; rw [if_pos h0]; simp
        · intro j hj
          match j with
          | 0 => exact absurd rfl hj
          | j + 1 =>
              unfold setFirst; rw [if_pos h0]
              simp
      · rw [find?_type_cons_neg (Bool.eq_false_iff.mpr h0)] at h
        obtain ⟨i, hci, hct, hbefore, hset, hother⟩ := ih h
        refine ⟨i + 1, ?_, hct, ?_, ?_, ?_⟩
        · simpa using hci
        · intro j hj cj hcj
          match j with
          | 0 =>
              simp only [List.getElem?_cons_zero, Option.some.injEq] at hcj
              subst hcj
              exact Bool.eq_false_iff.mpr h0
          | j + 1 =>
              simp only [List.getElem?_cons_succ] at hcj
              exact hbefore j (Nat.lt_of_succ_lt_succ hj) cj hcj
        · unfold setFirst; rw [if_neg h0]
          simpa using hset
        · intro j hj
          match j with
          | 0 => unfold setFirst; rw [if_neg h0]; simp
          | j + 1 =>
              unfold setFirst; rw [if_neg h0]
              simpa using hother j (fun hji => hj (congrArg (· + 1) hji))

/-- The structural projection of a component: its type and dependency list,
the fields no operation ever changes. -/
def structureOf (c : Component) : ComponentType × List ComponentType :=
  (c.type, c.dependsOn)

theorem setFirst_map_structure (comps : List Component) (t : ComponentType)
    (f : Component → Component) (hf : ∀ c, structureOf (f c) = structureOf c) :
    (setFirst comps t f).map structureOf = comps.map structureOf := by
  induction comps with
  | nil => rfl
  | cons c rest ih =>
      unfold setFirst
      by_cases h : (c.type == t) = true
      · rw [if_pos h]
        simp only [List.map_cons, hf]
      · rw [if_neg h]
        simp only [List.map_cons, ih]

theorem targetOf_structure (comps0 : List Component) (now : Nat) (c : Component) :
    structureOf (targetOf comps0 now c) = structureOf c := by
  unfold targetOf
  by_cases h : c.state = ComponentState.needsInit
      ∧ allDepsComplete comps0 c.dependsOn = true
  · rw [if_pos h]; rfl
  · rw [if_neg h]

/-- No `CompleteComponent` call (successful or failed) ever changes the set of
types or any dependency list. -/
theorem completeComponent_map_structure (d : DAG) (t : ComponentType) (now : Nat) :
    ((completeComponent d t now).2).components.map structureOf
      = d.components.map structureOf := by
  rcases hg : getComponent d t with _ | c
  · simp only [completeComponent, hg]
  · by_cases hs : c.state = ComponentState.incomplete
    · simp only [completeComponent, hg, if_pos hs]
      show (updateDependentComponents (markDone d t now) now).components.map structureOf = _
      rw [updateDependentComponents_eq_map, List.map_map]
      have : structureOf ∘ targetOf (markDone d t now).components now = structureOf :=
        funext (targetOf_structure _ now)
      rw [this]
      exact setFirst_map_structure d.components t _ (fun _ => rfl)
    · simp only [completeComponent, hg, if_neg hs]

theorem completeComponent_length (d : DAG) (t : ComponentType) (now : Nat) :
    ((completeComponent d t now).2).components.length = d.components.length := by
  have h := completeComponent_map_structure d t now
  have := congrArg List.length h
  simpa using this

/-! ## Claim theorems: C1 and C2 -/

/-- C1: after a successful `CompleteComponent(X)`, the propagation pass sends
each component to its `targetOf` image computed from the post-mark state: a
`NEEDS_INIT` (Blocked) component whose entire dependency set resolves to
`COMPLETED` (Done) components becomes `INCOMPLETE` (Ready), and every other
component — in particular every other Blocked component — is untouched.
Moreover any scan order visiting each position exactly once produces the same
resulting list, so the state set is independent of the scan order. -/
theorem completeComponent_propagation (d : DAG) (t : ComponentType) (now : Nat)
    (hok : (completeComponent d t now).1 = none) :
    ((completeComponent d t now).2).components
        = (markDone d t now).components.map
            (targetOf (markDone d t now).components now)
    ∧ (∀ order : List Nat,
        order.Perm (List.range (markDone d t now).components.length) →
        updIndices now (markDone d t now).components order
          = (markDone d t now).components.map
              (targetOf (markDone d t now).components now)) := by
  constructor
  · rcases hg : getComponent d t with _ | c
    · simp only [completeComponent, hg] at hok
      exact Option.noConfusion hok
    · by_cases hs : c.state = ComponentState.incomplete
      · simp only [completeComponent, hg, if_pos hs]
        exact updateDependentComponents_eq_map (markDone d t now) now
      · simp only [completeComponent, hg, if_neg hs] at hok
        exact Option.noConfusion hok
  · intro order hperm
    exact updIndices_perm_eq_map now _ order hperm

/-- C2: `CompleteComponent` on a component whose state is Blocked
(`NEEDS_INIT`) or already Done (`COMPLETED`) fails with the invalid-transition
error, a missing component fails with the not-found error, and in both cases
the returned graph is exactly the input graph — every state, `UpdateTime`,
`CompleteTime` and `DependsOn` list is unchanged. -/
theorem completeComponent_guarded (d : DAG) (t : ComponentType) (now : Nat) :
    (∀ c, getComponent d t = some c →
      (c.state = ComponentState.needsInit ∨ c.state = ComponentState.completed) →
      completeComponent d t now = (some CompleteError.invalidTransition, d)) ∧
    (getComponent d t = none →
      completeComponent d t now = (some CompleteError.notFound, d)) := by
  constructor
  · intro c hc hstate
    have hs : ¬ c.state = ComponentState.incomplete := by
      rcases hstate with h | h <;> rw [h] <;> intro hfalse <;>
        exact ComponentState.noConfusion hfalse
    simp only [completeComponent, hc, if_neg hs]
  · intro hnone
    simp only [completeComponent, hnone]

/-- Witness for C2 at a concrete input: completing `MAKE_DOUGH` on the fresh
pizza graph (where it is Blocked) is rejected and returns the graph
unchanged. -/
theorem completeComponent_guarded_witness :
    completeComponent (newPizzaOrderDAG 0) makeDoughT 5
      = (some CompleteError.invalidTransition, newPizzaOrderDAG 0) :=
  (completeComponent_guarded (newPizzaOrderDAG 0) makeDoughT 5).1
    { type := makeDoughT, state := ComponentState.needsInit,
      dependsOn := [paymentT], updateTime := 0, completeTime := none }
    (by decide) (Or.inl rfl)

/-- Witness for C1 at a concrete input: completing `PAYMENT` on the fresh
pizza graph succeeds, so the propagation characterisation applies to it. -/
theorem completeComponent_propagation_witness :
    ((completeComponent (newPizzaOrderDAG 0) paymentT 5).2).components
        = (markDone (newPizzaOrderDAG 0) paymentT 5).components.map
            (targetOf (markDone (newPizzaOrderDAG 0) paymentT 5).components 5) :=
  (completeComponent_propagation (newPizzaOrderDAG 0) paymentT 5 (by decide)).1

/-! ## Claim theorems: C9, C10, C7 -/

/-- `find?` returns the first element satisfying the predicate: generic
first-index characterisation. -/
theorem find?_first_spec {α : Type} (p : α → Bool) :
    ∀ (l : List α) (c : α), l.find? p = some c →
      ∃ i : Nat, l[i]? = some c ∧ p c = true ∧
        ∀ j : Nat, j < i → ∀ x : α, l[j]? = some x → p x = false := by
  intro l
  induction l with
  | nil => intro c h; exact Option.noConfusion h
  | cons a rest ih =>
      intro c h
      by_cases h0 : p a = true
      · rw [List.find?_cons_of_pos _ h0] at h
        obtain rfl : a = c := Option.some.inj h
        exact ⟨0, by simp, h0, fun j hj => absurd hj (Nat.not_lt_zero j)⟩
      · rw [List.find?_cons_of_neg _ h0] at h
        obtain ⟨i, hci, hpc, hbefore⟩ := ih c h
        refine ⟨i + 1, by simpa using hci, hpc, ?_⟩
        intro j hj x hx
        match j with
        | 0 =>
            simp only [List.getElem?_cons_zero, Option.some.injEq] at hx
            subst hx
            exact Bool.eq_false_iff.mpr h0
        | j + 1 =>
            simp only [List.getElem?_cons_succ] at hx
            exact hbefore j (Nat.lt_of_succ_lt_succ hj) x hx

/-- C9: `GetNextComponent` returns the first component in declaration order
whose state is `INCOMPLETE` (Ready), and returns `none` exactly when no
component is in that state.  It is a pure function of the graph value. -/
theorem getNextComponent_spec (d : DAG) :
    (∀ c : Component, getNextComponent d = some c →
      ∃ i : Nat, d.components[i]? = some c ∧ c.state = ComponentState.incomplete ∧
        ∀ j : Nat, j < i → ∀ cj : Component, d.components[j]? = some cj →
          cj.state ≠ ComponentState.incomplete) ∧
    (getNextComponent d = none ↔
      ∀ c ∈ d.components, c.state ≠ ComponentState.incomplete) := by
  constructor
  · intro c hc
    obtain ⟨i, hci, hpc, hbefore⟩ :=
      find?_first_spec (fun c => c.state == ComponentState.incomplete)
        d.components c
        (show d.components.find? (fun c => c.state == ComponentState.incomplete)
          = some c from hc)
    refine ⟨i, hci, by simpa using hpc, ?_⟩
    intro j hj cj hcj
    have := hbefore j hj cj hcj
    simpa using this
  · unfold getNextComponent
    rw [List.find?_eq_none]
    constructor
    · intro h c hc
      have := h c hc
      simpa using this
    · intro h c hc
      simpa using h c hc

/-- Witness for C9: on the fresh pizza graph the next component is the
`PAYMENT` step, sitting at the first position. -/
theorem getNextComponent_spec_witness :
    ∃ i : Nat, (newPizzaOrderDAG 0).components[i]? = some
        { type := paymentT, state := ComponentState.incomplete,
          dependsOn := [], updateTime := 0, completeTime := none } ∧
      ({ type := paymentT, state := ComponentState.incomplete,
          dependsOn := [], updateTime := 0,
          completeTime := none } : Component).state = ComponentState.incomplete ∧
      ∀ j : Nat, j < i → ∀ cj : Component,
        (newPizzaOrderDAG 0).components[j]? = some cj →
          cj.state ≠ ComponentState.incomplete :=
  (getNextComponent_spec (newPizzaOrderDAG 0)).1 _ (by decide)

/-- C10: with duplicated types, `GetComponent` returns the first matching
component in declaration order, and a successful `CompleteComponent` marks
`COMPLETED` exactly that first occurrence: every other position (in
particular every later duplicate) is `COMPLETED` afterwards iff it already
was before. -/
theorem duplicate_type_first_occurrence (d : DAG) (t : ComponentType) (now : Nat) :
    (∀ c : Component, getComponent d t = some c →
      ∃ i : Nat, d.components[i]? = some c ∧ c.type = t ∧
        ∀ j : Nat, j < i → ∀ cj : Component, d.components[j]? = some cj →
          cj.type ≠ t) ∧
    ((completeComponent d t now).1 = none →
      ∃ i : Nat, (∀ j : Nat, j < i → ∀ cj : Component,
          d.components[j]? = some cj → cj.type ≠ t) ∧
        (∃ ci : Component, d.components[i]? = some ci ∧ ci.type = t) ∧
        (∃ ci' : Component,
          ((completeComponent d t now).2).components[i]? = some ci' ∧
            ci'.state = ComponentState.completed) ∧
        ∀ j : Nat, j ≠ i → ∀ cj cj' : Component,
          d.components[j]? = some cj →
          ((completeComponent d t now).2).components[j]? = some cj' →
          (cj'.state = ComponentState.completed ↔
            cj.state = ComponentState.completed)) := by
  constructor
  · intro c hc
    obtain ⟨i, hci, hpc, hbefore⟩ :=
      find?_first_spec (fun x => x.type == t) d.components c
        (show d.components.find? (fun x => x.type == t) = some c from hc)
    refine ⟨i, hci, by simpa using hpc, ?_⟩
    intro j hj cj hcj
    have := hbefore j hj cj hcj
    simpa using this
  · intro hok
    rcases hg : getComponent d t with _ | c
    · simp only [completeComponent, hg] at hok
      exact Option.noConfusion hok
    · by_cases hs : c.state = ComponentState.incomplete
      · have hsnd : ((completeComponent d t now).2).components
            = (markDone d t now).components.map
                (targetOf (markDone d t now).components now) := by
          simp only [completeComponent, hg, if_pos hs]
          exact updateDependentComponents_eq_map (markDone d t now) now
        obtain ⟨i, hci, hct, hbefore, hset, hother⟩ :=
          setFirst_spec
            (fun c =>
              { c with state := ComponentState.completed,
                       completeTime := some now, updateTime := now })
            (show d.components.find? (fun x => x.type == t) = some c from hg)
        refine ⟨i, ?_, ⟨c, hci, by simpa using hct⟩, ?_, ?_⟩
        · intro j hj cj hcj
          have := hbefore j hj cj hcj
          simpa using this
        · refine ⟨{ c with state := ComponentState.completed,
                           completeTime := some now, updateTime := now }, ?_, rfl⟩
          rw [hsnd, List.getElem?_map]
          show Option.map _ (markDone d t now).components[i]? = _
          rw [show (markDone d t now).components = setFirst d.components t _ from rfl,
            hset]
          simp only [Option.map_some']
          unfold targetOf
          rw [if_neg]
          intro hcontra
          exact ComponentState.noConfusion hcontra.1
        · intro j hj cj cj' hcj hcj'
          rw [hsnd, List.getElem?_map] at hcj'
          have hdm : (markDone d t now).components[j]? = d.components[j]? :=
            hother j hj
          rw [hdm, hcj] at hcj'
          simp only [Option.map_some', Option.some.injEq] at hcj'
          subst hcj'
          unfold targetOf
          by_cases hcond : cj.state = ComponentState.needsInit
              ∧ allDepsComplete (markDone d t now).components cj.dependsOn = true
          · rw [if_pos hcond]
            constructor
            · intro hpr; exact ComponentState.noConfusion hpr
            · intro hcc; rw [hcond.1] at hcc; exact ComponentState.noConfusion hcc
          · rw [if_neg hcond]
      · simp only [completeComponent, hg, if_neg hs] at hok
        exact Option.noConfusion hok

/-- The only per-component moves any operation makes: stay put, Blocked to
Ready, or Ready to Done. -/
def stepOk (a b : ComponentState) : Prop :=
  a = b ∨ (a = ComponentState.needsInit ∧ b = ComponentState.incomplete) ∨
    (a = ComponentState.incomplete ∧ b = ComponentState.completed)

/-- C7: every `CompleteComponent` call (successful or failed) moves each
component along `Blocked → Ready → Done` only — no reversal, no skipping
`Ready`, and a `COMPLETED` component stays `COMPLETED`; and
`AllComponentsCompleted` is true exactly when every component is `COMPLETED`
(so it is false until then). -/
theorem completeComponent_monotonic (d : DAG) (t : ComponentType) (now : Nat) :
    (((completeComponent d t now).2).components.length = d.components.length) ∧
    (∀ j : Nat, ∀ cj cj' : Component, d.components[j]? = some cj →
      ((completeComponent d t now).2).components[j]? = some cj' →
      stepOk cj.state cj'.state) ∧
    (allComponentsCompleted d = true ↔
      ∀ c ∈ d.components, c.state = ComponentState.completed) := by
  refine ⟨completeComponent_length d t now, ?_, ?_⟩
  · intro j cj cj' hcj hcj'
    rcases hg : getComponent d t with _ | c
    · have : (completeComponent d t now).2 = d := by
        simp only [completeComponent, hg]
      rw [this, hcj] at hcj'
      obtain rfl : cj = cj' := Option.some.inj hcj'
      exact Or.inl rfl
    · by_cases hs : c.state = ComponentState.incomplete
      · have hsnd : ((completeComponent d t now).2).components
            = (markDone d t now).components.map
                (targetOf (markDone d t now).components now) := by
          simp only [completeComponent, hg, if_pos hs]
          exact updateDependentComponents_eq_map (markDone d t now) now
        obtain ⟨i, hci, hct, hbefore, hset, hother⟩ :=
          setFirst_spec
            (fun c =>
              { c with state := ComponentState.completed,
                       completeTime := some now, updateTime := now })
            (show d.components.find? (fun x => x.type == t) = some c from hg)
        rw [hsnd, List.getElem?_map] at hcj'
        by_cases hji : j = i
        · subst hji
          rw [show (markDone d t now).components = setFirst d.components t _ from rfl,
            hset] at hcj'
          simp only [Option.map_some', Option.some.injEq] at hcj'
          subst hcj'
          rw [hci] at hcj
          obtain rfl : c = cj := Option.some.inj hcj
          refine Or.inr (Or.inr ⟨hs, ?_⟩)
          have htgt : targetOf (markDone d t now).components now
              { c with state := ComponentState.completed,
                       completeTime := some now, updateTime := now }
              = { c with state := ComponentState.completed,
                         completeTime := some now, updateTime := now } := by
            unfold targetOf
            rw [if_neg]
            intro hcontra
            exact ComponentState.noConfusion hcontra.1
          show (targetOf (markDone d t now).components now
              { c with state := ComponentState.completed,
                       completeTime := some now, updateTime := now }).state
            = ComponentState.completed
          rw [htgt]
        · have hdm : (markDone d t now).components[j]? = d.components[j]? :=
            hother j hji
          rw [hdm, hcj] at hcj'
          simp only [Option.map_some', Option.some.injEq] at hcj'
          subst hcj'
          unfold targetOf
          by_cases hcond : cj.state = ComponentState.needsInit
              ∧ allDepsComplete (markDone d t now).components cj.dependsOn = true
          · rw [if_pos hcond]
            exact Or.inr (Or.inl ⟨hcond.1, rfl⟩)
          · rw [if_neg hcond]
            exact Or.inl rfl
      · have : (completeComponent d t now).2 = d := by
          simp only [completeComponent, hg, if_neg hs]
        rw [this, hcj] at hcj'
        obtain rfl : cj = cj' := Option.some.inj hcj'
        exact Or.inl rfl
  · unfold allComponentsCompleted
    rw [List.all_eq_true]
    constructor
    · intro h c hc
      have := h c hc
      simpa using this
    · intro h c hc
      simpa using h c hc

/-- Witness for C7: completing `PAYMENT` on the fresh pizza graph moves the
first component from Ready to Done, an allowed step. -/
theorem completeComponent_monotonic_witness :
    stepOk ComponentState.incomplete ComponentState.completed :=
  (completeComponent_monotonic (newPizzaOrderDAG 0) paymentT 5).2.1 0
    { type := paymentT, state := ComponentState.incomplete,
      dependsOn := [], updateTime := 0, completeTime := none }
    { type := paymentT, state := ComponentState.completed,
      dependsOn := [], updateTime := 5, completeTime := some 5 }
    (by decide) (by decide)

/-- Witness for C10: on a graph with two components of type `A`, completing
`A` marks exactly the first occurrence `COMPLETED`. -/
theorem duplicate_type_first_occurrence_witness :
    ∃ i : Nat, (∀ j : Nat, j < i → ∀ cj : Component,
        (⟨[{ type := "A", state := ComponentState.incomplete, dependsOn := [],
             updateTime := 0, completeTime := none },
           { type := "A", state := ComponentState.needsInit, dependsOn := ["A"],
             updateTime := 0, completeTime := none }]⟩ : DAG).components[j]?
          = some cj → cj.type ≠ "A") ∧
      (∃ ci : Component,
        (⟨[{ type := "A", state := ComponentState.incomplete, dependsOn := [],
             updateTime := 0, completeTime := none },
           { type := "A", state := ComponentState.needsInit, dependsOn := ["A"],
             updateTime := 0, completeTime := none }]⟩ : DAG).components[i]?
          = some ci ∧ ci.type = "A") ∧
      (∃ ci' : Component,
        ((completeComponent
          (⟨[{ type := "A", state := ComponentState.incomplete, dependsOn := [],
               updateTime := 0, completeTime := none },
             { type := "A", state := ComponentState.needsInit, dependsOn := ["A"],
               updateTime := 0, completeTime := none }]⟩ : DAG) "A" 3).2).components[i]?
          = some ci' ∧ ci'.state = ComponentState.completed) ∧
      ∀ j : Nat, j ≠ i → ∀ cj cj' : Component,
        (⟨[{ type := "A", state := ComponentState.incomplete, dependsOn := [],
             updateTime := 0, completeTime := none },
           { type := "A", state := ComponentState.needsInit, dependsOn := ["A"],
             updateTime := 0, completeTime := none }]⟩ : DAG).components[j]?
          = some cj →
        ((completeComponent
          (⟨[{ type := "A", state := ComponentState.incomplete, dependsOn := [],
               updateTime := 0, completeTime := none },
             { type := "A", state := ComponentState.needsInit, dependsOn := ["A"],
               updateTime := 0, completeTime := none }]⟩ : DAG) "A" 3).2).components[j]?
          = some cj' →
        (cj'.state = ComponentState.completed ↔
          cj.state = ComponentState.completed) :=
  (duplicate_type_first_occurrence
    (⟨[{ type := "A", state := ComponentState.incomplete, dependsOn := [],
         updateTime := 0, completeTime := none },
       { type := "A", state := ComponentState.needsInit, dependsOn := ["A"],
         updateTime := 0, completeTime := none }]⟩ : DAG) "A" 3).2 (by decide)

/-! ## Cycle-detection correctness: basic facts about the edge relation -/

theorem getComponent_type {d : DAG} {t : ComponentType} {c : Component}
    (h : getComponent d t = some c) : c.type = t := by
  have := List.find?_some h
  simpa using this

theorem getComponent_mem {d : DAG} {t : ComponentType} {c : Component}
    (h : getComponent d t = some c) : c ∈ d.components :=
  List.mem_of_find?_eq_some h

theorem getComponent_isSome_of_mem {d : DAG} {c : Component}
    (h : c ∈ d.components) : (getComponent d c.type).isSome = true := by
  unfold getComponent
  rw [List.find?_isSome]
  exact ⟨c, h, by simp⟩

theorem rdep_iff {d : DAG} {t u : ComponentType} :
    Rdep d t u ↔ ∃ c, getComponent d t = some c ∧ u ∈ c.dependsOn := by
  unfold Rdep depsOf
  rcases h : getComponent d t with _ | c
  · simp
  · simp

theorem mem_mentioned_of_mem {d : DAG} {c : Component} (h : c ∈ d.components) :
    c.type ∈ mentioned d := by
  unfold mentioned
  exact List.mem_append_left _ (List.mem_map_of_mem _ h)

theorem mem_foldr_append {L : List (List ComponentType)} {l : List ComponentType}
    {u : ComponentType} (hl : l ∈ L) (hu : u ∈ l) :
    u ∈ L.foldr (· ++ ·) [] := by
  induction L with
  | nil => exact absurd hl (List.not_mem_nil l)
  | cons a rest ih =>
      rcases List.mem_cons.mp hl with rfl | hl'
      · exact List.mem_append_left _ hu
      · exact List.mem_append_right _ (ih hl')

theorem mem_mentioned_of_dep {d : DAG} {c : Component} {u : ComponentType}
    (hc : c ∈ d.components) (hu : u ∈ c.dependsOn) : u ∈ mentioned d := by
  unfold mentioned
  refine List.mem_append_right _ ?_
  exact mem_foldr_append (List.mem_map_of_mem _ hc) hu

/-- The source of any edge resolves, so every node on a cycle is the type of
some component. -/
theorem rdep_src_mem {d : DAG} {t u : ComponentType} (h : Rdep d t u) :
    ∃ c ∈ d.components, c.type = t := by
  obtain ⟨c, hc, _⟩ := rdep_iff.mp h
  exact ⟨c, getComponent_mem hc, getComponent_type hc⟩

/-! ## Cycle-detection correctness: DFS state invariants -/

/-- A type fully processed by the DFS: visited and off the recursion stack. -/
def DoneSet (vis rec : List ComponentType) (x : ComponentType) : Prop :=
  x ∈ vis ∧ x ∉ rec

/-- Every dependency edge out of a fully processed type lands on a fully
processed type. -/
def EdgeClosed (d : DAG) (vis rec : List ComponentType) : Prop :=
  ∀ x, DoneSet vis rec x → ∀ u, Rdep d x u → DoneSet vis rec u

/-- No fully processed type lies on a dependency cycle. -/
def NoCyc (d : DAG) (vis rec : List ComponentType) : Prop :=
  ∀ x, DoneSet vis rec x → ¬ Relation.TransGen (Rdep d) x x

theorem doneSet_closed_reflTrans {d : DAG} {vis rec : List ComponentType}
    (hC : EdgeClosed d vis rec) {x y : ComponentType}
    (hx : DoneSet vis rec x) (hp : Relation.ReflTransGen (Rdep d) x y) :
    DoneSet vis rec y := by
  induction hp with
  | refl => exact hx
  | tail _ hbc ih => exact hC _ ih _ hbc

/-- Invariant package for `hasCycleF` at a given fuel: a true result really
found a cycle; a false result restores the recursion stack, only grows the
visited set, has visited the start node, and preserves closure and
cycle-freeness of the processed region. -/
def FSpecP (d : DAG) (fuel : Nat) : Prop :=
  ∀ t vis rec, Resolved d → (getComponent d t).isSome = true →
    t ∉ vis → (∀ x ∈ rec, x ∈ vis) →
    (∀ u ∈ rec, Relation.TransGen (Rdep d) u t) →
    EdgeClosed d vis rec → NoCyc d vis rec →
    ∀ res, hasCycleF fuel d t vis rec = some res →
      (res.1 = true → ∃ z, Relation.TransGen (Rdep d) z z) ∧
      (res.1 = false →
        res.2.2 = rec ∧ (∀ x ∈ vis, x ∈ res.2.1) ∧ t ∈ res.2.1 ∧
        EdgeClosed d res.2.1 rec ∧ NoCyc d res.2.1 rec)

/-- Invariant package for the dependency loop `hasCycleDepsF`. -/
def DSpecP (d : DAG) (fuel : Nat) : Prop :=
  ∀ t deps vis rec, Resolved d →
    (∀ u ∈ deps, Rdep d t u) →
    (∀ u ∈ deps, (getComponent d u).isSome = true) →
    (∀ x ∈ rec, x ∈ vis) →
    (∀ u ∈ rec, Relation.TransGen (Rdep d) u t ∨ u = t) →
    EdgeClosed d vis rec → NoCyc d vis rec →
    ∀ res, hasCycleDepsF fuel d deps vis rec = some res →
      (res.1 = true → ∃ z, Relation.TransGen (Rdep d) z z) ∧
      (res.1 = false →
        res.2.2 = rec ∧ (∀ x ∈ vis, x ∈ res.2.1) ∧
        EdgeClosed d res.2.1 rec ∧ NoCyc d res.2.1 rec ∧
        ∀ u ∈ deps, DoneSet res.2.1 rec u)

theorem fspec_zero (d : DAG) : FSpecP d 0 := by
  intro t vis rec _ _ _ _ _ _ _ res hres
  exact Option.noConfusion hres

theorem dspec_of_fspec (d : DAG) (fuel : Nat) (hF : FSpecP d fuel) : DSpecP d fuel := by
  intro t deps
  induction deps with
  | nil =>
      intro vis rec hres hedge hsome hsub hrec hEC hNC res hr
      have hres' : res = (false, vis, rec) := by
        simp only [hasCycleDepsF, hasCycleDepsGo, Option.some.injEq] at hr
        exact hr.symm
      subst hres'
      refine ⟨fun h => absurd h (by simp), fun _ => ?_⟩
      exact ⟨rfl, fun x hx => hx, hEC, hNC, fun u hu => absurd hu (List.not_mem_nil u)⟩
  | cons u rest ih =>
      intro vis rec hres hedge hsome hsub hrec hEC hNC res hr
      simp only [hasCycleDepsF, hasCycleDepsGo] at hr
      by_cases hu : u ∈ vis
      · rw [if_pos hu] at hr
        by_cases hur : u ∈ rec
        · rw [if_pos hur] at hr
          have hres' : res = (true, vis, rec) := (Option.some.inj hr).symm
          subst hres'
          refine ⟨fun _ => ?_, fun h => absurd h (by simp)⟩
          have hedgeU : Rdep d t u := hedge u (List.mem_cons_self u rest)
          rcases hrec u hur with htr | rfl
          · exact ⟨u, Relation.TransGen.tail htr hedgeU⟩
          · exact ⟨u, Relation.TransGen.single hedgeU⟩
        · rw [if_neg hur] at hr
          have hpost := ih vis rec hres
            (fun w hw => hedge w (List.mem_cons_of_mem _ hw))
            (fun w hw => hsome w (List.mem_cons_of_mem _ hw))
            hsub hrec hEC hNC res (by
              simpa [hasCycleDepsF] using hr)
          refine ⟨hpost.1, fun hfalse => ?_⟩
          obtain ⟨hr2, hsubv, hECv, hNCv, hdone⟩ := hpost.2 hfalse
          refine ⟨hr2, hsubv, hECv, hNCv, ?_⟩
          intro w hw
          rcases List.mem_cons.mp hw with rfl | hw'
          · exact ⟨hsubv w hu, hur⟩
          · exact hdone w hw'
      · rw [if_neg hu] at hr
        rcases hFr : hasCycleF fuel d u vis rec with _ | ⟨b, v, r⟩
        · rw [hFr] at hr; exact Option.noConfusion hr
        · have hrecF : ∀ w ∈ rec, Relation.TransGen (Rdep d) w u := by
            intro w hw
            have hedgeU : Rdep d t u := hedge u (List.mem_cons_self u rest)
            rcases hrec w hw with htr | rfl
            · exact Relation.TransGen.tail htr hedgeU
            · exact Relation.TransGen.single hedgeU
          have hFpost := hF u vis rec hres
            (hsome u (List.mem_cons_self u rest)) hu hsub hrecF hEC hNC
            (b, v, r) hFr
          rw [hFr] at hr
          dsimp only at hFpost hr
          match b with
          | true =>
              have hres' : res = (true, v, r) := (Option.some.inj hr).symm
              subst hres'
              exact ⟨fun _ => hFpost.1 rfl, fun h => absurd h (by simp)⟩
          | false =>
              obtain ⟨hreq, hsubv, huv, hECv, hNCv⟩ := hFpost.2 rfl
              rw [hreq] at hr
              have hpost := ih v rec hres
                (fun w hw => hedge w (List.mem_cons_of_mem _ hw))
                (fun w hw => hsome w (List.mem_cons_of_mem _ hw))
                (fun x hx => hsubv x (hsub x hx)) hrec hECv hNCv res (by
                  simpa [hasCycleDepsF] using hr)
              refine ⟨hpost.1, fun hfalse => ?_⟩
              obtain ⟨hr2, hsubv2, hECv2, hNCv2, hdone⟩ := hpost.2 hfalse
              refine ⟨hr2, fun x hx => hsubv2 x (hsubv x hx), hECv2, hNCv2, ?_⟩
              intro w hw
              rcases List.mem_cons.mp hw with rfl | hw'
              · exact ⟨hsubv2 w huv, fun hwr => hu (hsub w hwr)⟩
              · exact hdone w hw'

theorem fspec_succ (d : DAG) (fuel : Nat) (hD : DSpecP d fuel) : FSpecP d (fuel + 1) := by
  intro t vis rec hres hsome ht hsub hrec hEC hNC res hr
  rcases hg : getComponent d t with _ | c
  · rw [hg] at hsome; exact absurd hsome (by simp)
  · have hvis' : vis.insert t = t :: vis := List.insert_of_not_mem ht
    have htrec : t ∉ rec := fun h => ht (hsub t h)
    have hrec' : rec.insert t = t :: rec := List.insert_of_not_mem htrec
    simp only [hasCycleF, hg, hvis', hrec'] at hr
    have hdepsEdge : ∀ u ∈ c.dependsOn, Rdep d t u :=
      fun u hu => rdep_iff.mpr ⟨c, hg, hu⟩
    have hdepsSome : ∀ u ∈ c.dependsOn, (getComponent d u).isSome = true :=
      fun u hu => hres c (getComponent_mem hg) u hu
    have hsub' : ∀ x ∈ (t :: rec), x ∈ (t :: vis) := by
      intro x hx
      rcases List.mem_cons.mp hx with rfl | hx'
      · exact List.mem_cons_self x vis
      · exact List.mem_cons_of_mem _ (hsub x hx')
    have hrec'' : ∀ u ∈ (t :: rec),
        Relation.TransGen (Rdep d) u t ∨ u = t := by
      intro u hu
      rcases List.mem_cons.mp hu with rfl | hu'
      · exact Or.inr rfl
      · exact Or.inl (hrec u hu')
    have hEC' : EdgeClosed d (t :: vis) (t :: rec) := by
      intro x hx u hxu
      have hxt : x ≠ t := fun h => hx.2 (h ▸ List.mem_cons_self t rec)
      have hxvis : x ∈ vis := by
        rcases List.mem_cons.mp hx.1 with h | h
        · exact absurd h hxt
        · exact h
      have hxrec : x ∉ rec := fun h => hx.2 (List.mem_cons_of_mem _ h)
      have hdu := hEC x ⟨hxvis, hxrec⟩ u hxu
      refine ⟨List.mem_cons_of_mem _ hdu.1, ?_⟩
      intro hu
      rcases List.mem_cons.mp hu with rfl | hu'
      · exact ht hdu.1
      · exact hdu.2 hu'
    have hNC' : NoCyc d (t :: vis) (t :: rec) := by
      intro x hx hcyc
      have hxt : x ≠ t := fun h => hx.2 (h ▸ List.mem_cons_self t rec)
      have hxvis : x ∈ vis := by
        rcases List.mem_cons.mp hx.1 with h | h
        · exact absurd h hxt
        · exact h
      have hxrec : x ∉ rec := fun h => hx.2 (List.mem_cons_of_mem _ h)
      exact hNC x ⟨hxvis, hxrec⟩ hcyc
    have hfold : hasCycleDepsGo (fun u v r => hasCycleF fuel d u v r)
        c.dependsOn (t :: vis) (t :: rec)
        = hasCycleDepsF fuel d c.dependsOn (t :: vis) (t :: rec) := rfl
    rw [hfold] at hr
    rcases hDr : hasCycleDepsF fuel d c.dependsOn (t :: vis) (t :: rec)
      with _ | ⟨b, v, r⟩
    · rw [hDr] at hr; exact Option.noConfusion hr
    · have hDpost := hD t c.dependsOn (t :: vis) (t :: rec) hres
        hdepsEdge hdepsSome hsub' hrec'' hEC' hNC' (b, v, r) hDr
      rw [hDr] at hr
      dsimp only at hDpost hr
      match b with
      | true =>
          have hres' : res = (true, v, r) := (Option.some.inj hr).symm
          subst hres'
          exact ⟨fun _ => hDpost.1 rfl, fun h => absurd h (by simp)⟩
      | false =>
          obtain ⟨hreq, hsubv, hECv, hNCv, hdone⟩ := hDpost.2 rfl
          subst hreq
          have hres' : res = (false, v, (t :: rec).erase t) :=
            (Option.some.inj hr).symm
          subst hres'
          refine ⟨fun h => absurd h (by simp), fun _ => ?_⟩
          have herase : (t :: rec).erase t = rec := List.erase_cons_head t rec
      -- the erased stack is the input stack; the processed region kept its
      -- invariants with `t` now fully processed
          refine ⟨herase, ?_, ?_, ?_, ?_⟩
          · intro x hx
            exact hsubv x (List.mem_cons_of_mem _ hx)
          · exact hsubv t (List.mem_cons_self t vis)
          · -- EdgeClosed d v rec
            rw [herase]
            intro x hx u hxu
            by_cases hxt : x = t
            · subst hxt
              have hu : u ∈ c.dependsOn := by
                obtain ⟨c', hc', hu'⟩ := rdep_iff.mp hxu
                rw [hg] at hc'
                obtain rfl : c = c' := Option.some.inj hc'
                exact hu'
              have := hdone u hu
              refine ⟨this.1, fun hur => this.2 (List.mem_cons_of_mem _ hur)⟩
            · have hxnr : x ∉ (t :: rec) := by
                intro hmem
                rcases List.mem_cons.mp hmem with h | h
                · exact hxt h
                · exact hx.2 h
              have := hECv x ⟨hx.1, hxnr⟩ u hxu
              exact ⟨this.1, fun hur => this.2 (List.mem_cons_of_mem _ hur)⟩
          · -- NoCyc d v rec
            rw [herase]
            intro x hx hcyc
            by_cases hxt : x = t
            · subst hxt
              obtain ⟨w, hxw, hwx⟩ := Relation.TransGen.head'_iff.mp hcyc
              have hw : w ∈ c.dependsOn := by
                obtain ⟨c', hc', hu'⟩ := rdep_iff.mp hxw
                rw [hg] at hc'
                obtain rfl : c = c' := Option.some.inj hc'
                exact hu'
              have hdw := hdone w hw
              have := doneSet_closed_reflTrans hECv hdw hwx
              exact this.2 (List.mem_cons_self x rec)
            · have hxnr : x ∉ (t :: rec) := by
                intro hmem
                rcases List.mem_cons.mp hmem with h | h
                · exact hxt h
                · exact hx.2 h
              exact hNCv x ⟨hx.1, hxnr⟩ hcyc

/-- The DFS invariants hold at every fuel level. -/
theorem fspec_all (d : DAG) : ∀ fuel, FSpecP d fuel := by
  intro fuel
  induction fuel with
  | zero => exact fspec_zero d
  | succ n ih => exact fspec_succ d n (dspec_of_fspec d n ih)

/-! ## Cycle detection: the fuel is never exhausted (termination) -/

/-- Number of mentioned types not yet visited: the measure that shrinks at
every recursive call of the DFS. -/
def countUnvis (d : DAG) (vis : List ComponentType) : Nat :=
  ((mentioned d).dedup.filter (fun x => decide (x ∉ vis))).length

theorem filter_length_mono {α : Type} (M : List α) (p p' : α → Bool)
    (h : ∀ x, p' x = true → p x = true) :
    (M.filter p').length ≤ (M.filter p).length := by
  induction M with
  | nil => exact Nat.le_refl 0
  | cons a M' ih =>
      by_cases hp' : p' a = true
      · rw [List.filter_cons_of_pos hp', List.filter_cons_of_pos (h a hp')]
        exact Nat.succ_le_succ ih
      · rw [List.filter_cons_of_neg (by simpa using hp')]
        by_cases hp : p a = true
        · rw [List.filter_cons_of_pos hp]
          exact Nat.le_succ_of_le ih
        · rw [List.filter_cons_of_neg (by simpa using hp)]
          exact ih

theorem filter_length_strict {α : Type} (M : List α) (p p' : α → Bool)
    (h : ∀ x, p' x = true → p x = true) (t : α) (ht : t ∈ M)
    (hpt : p t = true) (hp't : p' t = false) :
    (M.filter p').length < (M.filter p).length := by
  induction M with
  | nil => exact absurd ht (List.not_mem_nil t)
  | cons a M' ih =>
      rcases List.mem_cons.mp ht with rfl | ht'
      · rw [List.filter_cons_of_pos hpt,
          List.filter_cons_of_neg (by simp [hp't])]
        exact Nat.lt_succ_of_le (filter_length_mono M' p p' h)
      · by_cases hp' : p' a = true
        · rw [List.filter_cons_of_pos hp', List.filter_cons_of_pos (h a hp')]
          exact Nat.succ_lt_succ (ih ht')
        · rw [List.filter_cons_of_neg (by simpa using hp')]
          by_cases hp : p a = true
          · rw [List.filter_cons_of_pos hp]
            exact Nat.lt_succ_of_lt (ih ht')
          · rw [List.filter_cons_of_neg (by simpa using hp)]
            exact ih ht'

theorem countUnvis_mono (d : DAG) {vis vis2 : List ComponentType}
    (h : ∀ x ∈ vis, x ∈ vis2) : countUnvis d vis2 ≤ countUnvis d vis := by
  refine filter_length_mono _ _ _ ?_
  intro x hx
  simp only [decide_eq_true_eq] at hx ⊢
  exact fun hmem => hx (h x hmem)

theorem countUnvis_cons_lt (d : DAG) {t : ComponentType} {vis : List ComponentType}
    (ht : t ∈ mentioned d) (hv : t ∉ vis) :
    countUnvis d (t :: vis) < countUnvis d vis := by
  refine filter_length_strict _ _ _ ?_ t (List.mem_dedup.mpr ht) ?_ ?_
  · intro x hx
    simp only [decide_eq_true_eq] at hx ⊢
    exact fun hmem => hx (List.mem_cons_of_mem _ hmem)
  · simpa using hv
  · simp

/-- Fuel-sufficiency invariant for `hasCycleF`: enough fuel means no `none`,
and the visited set only grows and stays inside the mentioned types. -/
def FSufP (d : DAG) (fuel : Nat) : Prop :=
  ∀ t vis rec, t ∈ mentioned d → t ∉ vis →
    (∀ x ∈ vis, x ∈ mentioned d) → countUnvis d vis < fuel →
    ∃ res, hasCycleF fuel d t vis rec = some res ∧
      (∀ x ∈ vis, x ∈ res.2.1) ∧ t ∈ res.2.1 ∧
      (∀ x ∈ res.2.1, x ∈ mentioned d)

/-- Fuel-sufficiency invariant for the dependency loop. -/
def DSufP (d : DAG) (fuel : Nat) : Prop :=
  ∀ deps vis rec, (∀ u ∈ deps, u ∈ mentioned d) →
    (∀ x ∈ vis, x ∈ mentioned d) → countUnvis d vis < fuel →
    ∃ res, hasCycleDepsF fuel d deps vis rec = some res ∧
      (∀ x ∈ vis, x ∈ res.2.1) ∧ (∀ x ∈ res.2.1, x ∈ mentioned d)

theorem fsuf_zero (d : DAG) : FSufP d 0 := by
  intro t vis rec _ _ _ hcount
  exact absurd hcount (Nat.not_lt_zero _)

theorem dsuf_of_fsuf (d : DAG) (fuel : Nat) (hF : FSufP d fuel) : DSufP d fuel := by
  intro deps
  induction deps with
  | nil =>
      intro vis rec _ hvm _
      exact ⟨(false, vis, rec), rfl, fun x hx => hx, hvm⟩
  | cons u rest ih =>
      intro vis rec hdm hvm hcount
      by_cases hu : u ∈ vis
      · by_cases hur : u ∈ rec
        · refine ⟨(true, vis, rec), ?_, fun x hx => hx, hvm⟩
          simp only [hasCycleDepsF, hasCycleDepsGo, if_pos hu, if_pos hur]
        · obtain ⟨res, hres, hsub, hment⟩ := ih vis rec
            (fun w hw => hdm w (List.mem_cons_of_mem _ hw)) hvm hcount
          refine ⟨res, ?_, hsub, hment⟩
          simp only [hasCycleDepsF, hasCycleDepsGo, if_pos hu, if_neg hur]
          simpa [hasCycleDepsF] using hres
      · obtain ⟨⟨b, v, r⟩, hFr, hsubF, huF, hmentF⟩ :=
          hF u vis rec (hdm u (List.mem_cons_self u rest)) hu hvm hcount
        match b with
        | true =>
            refine ⟨(true, v, r), ?_, hsubF, hmentF⟩
            simp only [hasCycleDepsF, hasCycleDepsGo, if_neg hu]
            rw [hFr]
        | false =>
            have hcount' : countUnvis d v < fuel :=
              Nat.lt_of_le_of_lt (countUnvis_mono d hsubF) hcount
            obtain ⟨res, hres, hsub2, hment2⟩ := ih v r
              (fun w hw => hdm w (List.mem_cons_of_mem _ hw)) hmentF hcount'
            refine ⟨res, ?_, fun x hx => hsub2 x (hsubF x hx), hment2⟩
            simp only [hasCycleDepsF, hasCycleDepsGo, if_neg hu]
            rw [hFr]
            simpa [hasCycleDepsF] using hres

theorem fsuf_succ (d : DAG) (fuel : Nat) (hD : DSufP d fuel) : FSufP d (fuel + 1) := by
  intro t vis rec ht hv hvm hcount
  have hvis' : vis.insert t = t :: vis := List.insert_of_not_mem hv
  have hvm' : ∀ x ∈ (t :: vis), x ∈ mentioned d := by
    intro x hx
    rcases List.mem_cons.mp hx with rfl | hx'
    · exact ht
    · exact hvm x hx'
  rcases hg : getComponent d t with _ | c
  · refine ⟨(false, t :: vis, rec.insert t), ?_, ?_, ?_, hvm'⟩
    · simp only [hasCycleF, hg, hvis']
    · exact fun x hx => List.mem_cons_of_mem _ hx
    · exact List.mem_cons_self t vis
  · have hcount' : countUnvis d (t :: vis) < fuel :=
      Nat.lt_of_lt_of_le (countUnvis_cons_lt d ht hv) (Nat.lt_succ_iff.mp hcount)
    have hdm : ∀ u ∈ c.dependsOn, u ∈ mentioned d :=
      fun u hu => mem_mentioned_of_dep (getComponent_mem hg) hu
    obtain ⟨⟨b, v, r⟩, hDr, hsubD, hmentD⟩ :=
      hD c.dependsOn (t :: vis) (rec.insert t) hdm hvm' hcount'
    have hfold : hasCycleDepsGo (fun u vv rr => hasCycleF fuel d u vv rr)
        c.dependsOn (t :: vis) (rec.insert t)
        = hasCycleDepsF fuel d c.dependsOn (t :: vis) (rec.insert t) := rfl
    match b with
    | true =>
        refine ⟨(true, v, r), ?_, ?_, ?_, hmentD⟩
        · simp only [hasCycleF, hg, hvis', hfold]
          rw [hDr]
        · exact fun x hx => hsubD x (List.mem_cons_of_mem _ hx)
        · exact hsubD t (List.mem_cons_self t vis)
    | false =>
        refine ⟨(false, v, r.erase t), ?_, ?_, ?_, hmentD⟩
        · simp only [hasCycleF, hg, hvis', hfold]
          rw [hDr]
        · exact fun x hx => hsubD x (List.mem_cons_of_mem _ hx)
        · exact hsubD t (List.mem_cons_self t vis)

theorem fsuf_all (d : DAG) : ∀ fuel, FSufP d fuel := by
  intro fuel
  induction fuel with
  | zero => exact fsuf_zero d
  | succ n ih => exact fsuf_succ d n (dsuf_of_fsuf d n ih)

/-! ## Cycle detection: top-level correctness of `validateNoCycles` -/

theorem validateRootsF_ne_none (d : DAG) (fuel : Nat) :
    ∀ (cs : List Component) (vis rec : List ComponentType),
      (∀ c ∈ cs, c ∈ d.components) →
      (∀ x ∈ vis, x ∈ mentioned d) → countUnvis d vis < fuel →
      validateRootsF fuel d cs vis rec ≠ none := by
  intro cs
  induction cs with
  | nil => intro vis rec _ _ _ h; exact Option.noConfusion h
  | cons c rest ih =>
      intro vis rec hcs hvm hcount
      unfold validateRootsF
      by_cases hc : c.type ∈ vis
      · rw [if_pos hc]
        exact ih vis rec (fun x hx => hcs x (List.mem_cons_of_mem _ hx)) hvm hcount
      · rw [if_neg hc]
        obtain ⟨⟨b, v, r⟩, hFr, hsubF, _, hmentF⟩ :=
          fsuf_all d fuel c.type vis rec
            (mem_mentioned_of_mem (hcs c (List.mem_cons_self c rest))) hc hvm hcount
        rw [hFr]
        match b with
        | true => intro h; exact Option.noConfusion h
        | false =>
            exact ih v r (fun x hx => hcs x (List.mem_cons_of_mem _ hx)) hmentF
              (Nat.lt_of_le_of_lt (countUnvis_mono d hsubF) hcount)

/-- The embedded DFS never runs out of fuel: the Go recursion terminates on
every finite input. -/
theorem validateNoCycles_ne_none (d : DAG) : validateNoCycles d ≠ none := by
  refine validateRootsF_ne_none d (cycleFuel d) d.components [] []
    (fun c hc => hc) (fun x hx => absurd hx (List.not_mem_nil x)) ?_
  unfold countUnvis cycleFuel
  have : ((mentioned d).dedup.filter (fun x => decide (x ∉ ([] : List ComponentType))))
      = (mentioned d).dedup := by
    refine List.filter_eq_self.mpr ?_
    intro x _
    simp
  rw [this]
  exact Nat.lt_succ_self _

theorem validateRootsF_spec (d : DAG) (hres : Resolved d) (fuel : Nat) :
    ∀ (cs : List Component) (vis : List ComponentType),
      (∀ c ∈ cs, c ∈ d.components) →
      EdgeClosed d vis [] → NoCyc d vis [] →
      (validateRootsF fuel d cs vis [] = some true → Cyclic d) ∧
      (validateRootsF fuel d cs vis [] = some false →
        ∀ c ∈ cs, ¬ Relation.TransGen (Rdep d) c.type c.type) := by
  intro cs
  induction cs with
  | nil =>
      intro vis _ _ _
      refine ⟨fun h => ?_, fun _ c hc => absurd hc (List.not_mem_nil c)⟩
      · simp only [validateRootsF] at h
        exact absurd (Option.some.inj h) (by simp)
  | cons c rest ih =>
      intro vis hcs hEC hNC
      by_cases hc : c.type ∈ vis
      · have hrec : validateRootsF fuel d (c :: rest) vis []
            = validateRootsF fuel d rest vis [] := by
          simp only [validateRootsF]
          rw [if_pos hc]
        rw [hrec]
        obtain ⟨h1, h2⟩ := ih vis (fun x hx => hcs x (List.mem_cons_of_mem _ hx)) hEC hNC
        refine ⟨h1, fun hfalse w hw => ?_⟩
        rcases List.mem_cons.mp hw with rfl | hw'
        · exact hNC w.type ⟨hc, List.not_mem_nil _⟩
        · exact h2 hfalse w hw'
      · rcases hFr : hasCycleF fuel d c.type vis [] with _ | ⟨b, v, r⟩
        · have hrw : validateRootsF fuel d (c :: rest) vis [] = none := by
            simp only [validateRootsF]
            rw [if_neg hc, hFr]
          rw [hrw]
          exact ⟨fun h => Option.noConfusion h, fun h => Option.noConfusion h⟩
        · have hFpost := fspec_all d fuel c.type vis [] hres
            (getComponent_isSome_of_mem (hcs c (List.mem_cons_self c rest))) hc
            (fun x hx => absurd hx (List.not_mem_nil x))
            (fun u hu => absurd hu (List.not_mem_nil u)) hEC hNC (b, v, r) hFr
          dsimp only at hFpost
          match b with
          | true =>
              have hrw : validateRootsF fuel d (c :: rest) vis [] = some true := by
                simp only [validateRootsF]
                rw [if_neg hc, hFr]
              rw [hrw]
              exact ⟨fun _ => hFpost.1 rfl, fun h => absurd (Option.some.inj h) (by simp)⟩
          | false =>
              obtain ⟨hreq, hsubv, hcv, hECv, hNCv⟩ := hFpost.2 rfl
              have hrw : validateRootsF fuel d (c :: rest) vis []
                  = validateRootsF fuel d rest v [] := by
                simp only [validateRootsF]
                rw [if_neg hc, hFr, hreq]
              rw [hrw]
              obtain ⟨h1, h2⟩ := ih v (fun x hx => hcs x (List.mem_cons_of_mem _ hx))
                hECv hNCv
              refine ⟨h1, fun hfalse w hw => ?_⟩
              rcases List.mem_cons.mp hw with rfl | hw'
              · exact hNCv w.type ⟨hcv, List.not_mem_nil _⟩
              · exact h2 hfalse w hw'

/-- On a graph whose dependencies all resolve, `validateNoCycles` reports a
cycle exactly when the dependency relation has one. -/
theorem validateNoCycles_true_iff (d : DAG) (hres : Resolved d) :
    validateNoCycles d = some true ↔ Cyclic d := by
  have hEC : EdgeClosed d [] [] := fun x hx => absurd hx.1 (List.not_mem_nil x)
  have hNC : NoCyc d [] [] := fun x hx => absurd hx.1 (List.not_mem_nil x)
  have hspec := validateRootsF_spec d hres (cycleFuel d) d.components []
    (fun c hc => hc) hEC hNC
  constructor
  · exact hspec.1
  · intro hcyc
    rcases h : validateNoCycles d with _ | b
    · exact absurd h (validateNoCycles_ne_none d)
    · match b with
      | true => rfl
      | false =>
          obtain ⟨z, hz⟩ := hcyc
          obtain ⟨w, hzw, _⟩ := Relation.TransGen.head'_iff.mp hz
          obtain ⟨c0, hc0, hct⟩ := rdep_src_mem hzw
          rw [← hct] at hz
          exact absurd hz (hspec.2 h c0 hc0)

theorem validateNoCycles_false_iff (d : DAG) (hres : Resolved d) :
    validateNoCycles d = some false ↔ ¬ Cyclic d := by
  constructor
  · intro h hcyc
    have := (validateNoCycles_true_iff d hres).mpr hcyc
    rw [h] at this
    exact absurd (Option.some.inj this) (by simp)
  · intro hncyc
    rcases h : validateNoCycles d with _ | b
    · exact absurd h (validateNoCycles_ne_none d)
    · match b with
      | false => rfl
      | true => exact absurd ((validateNoCycles_true_iff d hres).mp h) hncyc

/-! ## Claim theorems: C3, C4, C5, C6 -/

instance (d : DAG) (t u : ComponentType) : Decidable (Rdep d t u) :=
  inferInstanceAs (Decidable (u ∈ depsOf d t))

/-- The two-step cycle `A → [B]`, `B → [A]`. -/
def cyclePairComponents : List Component :=
  [ { type := "A", state := ComponentState.needsInit, dependsOn := ["B"],
      updateTime := 0, completeTime := none },
    { type := "B", state := ComponentState.needsInit, dependsOn := ["A"],
      updateTime := 0, completeTime := none } ]

/-- Two steps sharing the unresolved dependency `X`: an acyclic set. -/
def danglingPairComponents : List Component :=
  [ { type := "A", state := ComponentState.needsInit, dependsOn := ["X"],
      updateTime := 0, completeTime := none },
    { type := "B", state := ComponentState.needsInit, dependsOn := ["X"],
      updateTime := 0, completeTime := none } ]

/-- A single step with an unresolved dependency `X`. -/
def danglingSingleComponents : List Component :=
  [ { type := "A", state := ComponentState.needsInit, dependsOn := ["X"],
      updateTime := 0, completeTime := none } ]

/-- A definition set in which the id `A` appears twice. -/
def duplicateIdComponents : List Component :=
  [ { type := "A", state := ComponentState.incomplete, dependsOn := [],
      updateTime := 0, completeTime := none },
    { type := "A", state := ComponentState.needsInit, dependsOn := [],
      updateTime := 1, completeTime := none } ]

/-- A definition set whose only step arrives already `COMPLETED`, with a
completion timestamp, despite an empty dependency list. -/
def weirdStateComponents : List Component :=
  [ { type := "A", state := ComponentState.completed, dependsOn := [],
      updateTime := 0, completeTime := some 5 } ]

/-- `NewDAG` can only succeed (returning the components verbatim) or fail
with the cycle error: no other error exists in construction. -/
theorem newDAG_ok_or_cycle (comps : List Component) :
    NewDAG comps = Except.ok ⟨comps⟩ ∨ NewDAG comps = Except.error cycleErrorMsg := by
  unfold NewDAG
  rcases h : validateNoCycles ⟨comps⟩ with _ | b
  · exact Or.inr rfl
  · match b with
    | false => exact Or.inl rfl
    | true => exact Or.inr rfl

/-- Counterexample to C3 as stated: the definition set `A → [X]`, `B → [X]`
(with `X` undefined) is acyclic, yet `NewDAG` rejects it with the cycle
error, because `hasCycle` never removes an unresolvable type from
`recStack`. -/
theorem cycle_check_counterexample :
    ¬ Cyclic ⟨danglingPairComponents⟩ ∧
    NewDAG danglingPairComponents = Except.error cycleErrorMsg := by
  constructor
  · rintro ⟨z, hz⟩
    have hX : ∀ u, ¬ Rdep ⟨danglingPairComponents⟩ "X" u := by
      intro u hu
      have hdeps : depsOf ⟨danglingPairComponents⟩ "X" = [] := rfl
      unfold Rdep at hu
      rw [hdeps] at hu
      exact List.not_mem_nil u hu
    have htgt : ∀ z u, Rdep ⟨danglingPairComponents⟩ z u → u = "X" := by
      intro z u hu
      obtain ⟨c, hc, hmem⟩ := rdep_iff.mp hu
      have hcm := getComponent_mem hc
      simp only [danglingPairComponents, DAG.mk.injEq, List.mem_cons,
        List.not_mem_nil, or_false] at hcm
      rcases hcm with rfl | rfl <;> simpa using hmem
    obtain ⟨w, hzw, hwz⟩ := Relation.TransGen.head'_iff.mp hz
    obtain rfl : w = "X" := htgt z w hzw
    rcases Relation.ReflTransGen.cases_head hwz with rfl | ⟨v, hv, _⟩
    · exact hX "X" hzw
    · exact hX v hv
  · rfl

/-- C3 (amended): the concrete two-step cycle is rejected with the cycle
error; on definition sets whose dependencies all resolve, construction
rejects exactly the cyclic sets and accepts exactly the acyclic ones; and
the fuelled three-colour DFS never exhausts its fuel, i.e. terminates on
every finite input. -/
theorem newDAG_cycle_validation :
    (NewDAG cyclePairComponents = Except.error cycleErrorMsg) ∧
    (∀ comps : List Component, Resolved ⟨comps⟩ →
      (Cyclic ⟨comps⟩ → NewDAG comps = Except.error cycleErrorMsg) ∧
      (¬ Cyclic ⟨comps⟩ → NewDAG comps = Except.ok ⟨comps⟩)) ∧
    (∀ d : DAG, validateNoCycles d ≠ none) := by
  refine ⟨rfl, ?_, validateNoCycles_ne_none⟩
  intro comps hres
  constructor
  · intro hcyc
    have h := (validateNoCycles_true_iff ⟨comps⟩ hres).mpr hcyc
    unfold NewDAG
    rw [h]
  · intro hncyc
    have h := (validateNoCycles_false_iff ⟨comps⟩ hres).mpr hncyc
    unfold NewDAG
    rw [h]

/-- Witness for C3: on the resolved, cyclic pair the amended theorem applies
and construction fails with the cycle error. -/
theorem newDAG_cycle_validation_witness :
    NewDAG cyclePairComponents = Except.error cycleErrorMsg :=
  (newDAG_cycle_validation.2.1 cyclePairComponents (by decide)).1
    ⟨"A", Relation.TransGen.head
      (show Rdep ⟨cyclePairComponents⟩ "A" "B" by decide)
      (Relation.TransGen.single
        (show Rdep ⟨cyclePairComponents⟩ "B" "A" by decide))⟩

/-- Counterexample to C4 as stated: the id `A` appears twice, yet `NewDAG`
returns the graph, with no `DuplicateId` error. -/
theorem newDAG_duplicate_id_counterexample :
    duplicateIdComponents.map (fun c => c.type) = ["A", "A"] ∧
    NewDAG duplicateIdComponents = Except.ok ⟨duplicateIdComponents⟩ :=
  ⟨rfl, rfl⟩

/-- C4 (amended): `NewDAG` performs no duplicate-id check at all — the only
possible construction failure is the cycle error — and the concrete
duplicated set is accepted verbatim. -/
theorem newDAG_no_duplicate_check :
    (∀ comps : List Component,
      NewDAG comps = Except.ok ⟨comps⟩ ∨ NewDAG comps = Except.error cycleErrorMsg) ∧
    NewDAG duplicateIdComponents = Except.ok ⟨duplicateIdComponents⟩ :=
  ⟨newDAG_ok_or_cycle, rfl⟩

/-- Counterexample to C5 as stated: the dependency `X` of `A` is not in the
definition set, yet `NewDAG` returns the graph, with no `UnknownDependency`
error. -/
theorem newDAG_unknown_dependency_counterexample :
    ¬ Resolved ⟨danglingSingleComponents⟩ ∧
    NewDAG danglingSingleComponents = Except.ok ⟨danglingSingleComponents⟩ :=
  ⟨by decide, rfl⟩

/-- C5 (amended): `NewDAG` performs no unknown-dependency check — the only
possible construction failure is the cycle error; a set with a dangling
reference can be accepted (`A → [X]`) or even misreported as a cycle
(`A → [X]`, `B → [X]`), but never reported as an unknown dependency. -/
theorem newDAG_no_unknown_dependency_check :
    (∀ comps : List Component,
      NewDAG comps = Except.ok ⟨comps⟩ ∨ NewDAG comps = Except.error cycleErrorMsg) ∧
    NewDAG danglingSingleComponents = Except.ok ⟨danglingSingleComponents⟩ ∧
    NewDAG danglingPairComponents = Except.error cycleErrorMsg :=
  ⟨newDAG_ok_or_cycle, rfl, rfl⟩

/-- Counterexample to C6 as stated: `NewDAG` accepts a component whose
dependency list is empty but whose state is `COMPLETED` (not Ready) with a
non-absent `CompleteTime` — the constructor assigns nothing. -/
theorem newDAG_initial_state_counterexample :
    NewDAG weirdStateComponents = Except.ok ⟨weirdStateComponents⟩ ∧
    ∀ c ∈ weirdStateComponents,
      c.dependsOn = [] ∧ c.state ≠ ComponentState.incomplete ∧
      c.completeTime ≠ none :=
  ⟨rfl, by decide⟩

/-- C6 (amended): `NewDAG` preserves the caller-supplied components
verbatim (it assigns no states or timestamps); it is the specific
constructor `NewPizzaOrderDAG` that assigns each step's initial state —
Ready exactly for the dependency-free `PAYMENT` step and Blocked for the
four dependent steps — with `CompleteTime` absent and `UpdateTime` equal to
the construction time for every step. -/
theorem newDAG_preserves_states (now : Nat) :
    (∀ (comps : List Component) (d' : DAG),
      NewDAG comps = Except.ok d' → d' = ⟨comps⟩) ∧
    (newPizzaOrderDAG now).components = pizzaComponents now ∧
    ∀ c ∈ (newPizzaOrderDAG now).components,
      (c.dependsOn = [] ↔ c.state = ComponentState.incomplete) ∧
      (c.dependsOn ≠ [] ↔ c.state = ComponentState.needsInit) ∧
      c.completeTime = none ∧ c.updateTime = now := by
  refine ⟨?_, rfl, ?_⟩
  · intro comps d' h
    unfold NewDAG at h
    rcases hv : validateNoCycles ⟨comps⟩ with _ | b
    · rw [hv] at h; exact Except.noConfusion h
    · match b with
      | false =>
          rw [hv] at h
          exact (Except.ok.inj h).symm
      | true => rw [hv] at h; exact Except.noConfusion h
  · intro c hc
    have : (newPizzaOrderDAG now).components = pizzaComponents now := rfl
    rw [this] at hc
    simp only [pizzaComponents, List.mem_cons, List.not_mem_nil, or_false] at hc
    rcases hc with rfl | rfl | rfl | rfl | rfl <;>
      refine ⟨?_, ?_, rfl, rfl⟩ <;> simp

/-- Witness for C6: the pizza constructor at time 7 returns exactly its
literal component list. -/
theorem newDAG_preserves_states_witness :
    newPizzaOrderDAG 7 = (⟨pizzaComponents 7⟩ : DAG) :=
  (newDAG_preserves_states 7).1 (pizzaComponents 7) (newPizzaOrderDAG 7) rfl

/-! ## Claim theorems: C8 (snapshot / restore) -/

theorem getComponent_isSome_iff (d : DAG) (u : ComponentType) :
    (getComponent d u).isSome = true ↔ ∃ c ∈ d.components, c.type = u := by
  unfold getComponent
  rw [List.find?_isSome]
  constructor
  · rintro ⟨c, hc, hp⟩
    exact ⟨c, hc, by simpa using hp⟩
  · rintro ⟨c, hc, hp⟩
    exact ⟨c, hc, by simpa using hp⟩

theorem mem_structure_transfer {l₁ l₂ : List Component}
    (h : l₁.map structureOf = l₂.map structureOf) {c : Component} (hc : c ∈ l₁) :
    ∃ c', c' ∈ l₂ ∧ c'.type = c.type ∧ c'.dependsOn = c.dependsOn := by
  have hmem : structureOf c ∈ l₂.map structureOf :=
    h ▸ List.mem_map_of_mem _ hc
  obtain ⟨c', hc', hs⟩ := List.mem_map.mp hmem
  exact ⟨c', hc', congrArg Prod.fst hs, congrArg Prod.snd hs⟩

theorem map_type_eq_of_structure {l₁ l₂ : List Component}
    (h : l₁.map structureOf = l₂.map structureOf) :
    l₁.map (fun c => c.type) = l₂.map (fun c => c.type) := by
  have h1 := congrArg (List.map Prod.fst) h
  rw [List.map_map, List.map_map] at h1
  exact h1

/-- The construction-time invariants the specification guarantees: unique
ids and fully resolving dependency lists. -/
def SpecValid (d : DAG) : Prop :=
  (d.components.map (fun c => c.type)).Nodup ∧ Resolved d

instance (d : DAG) : Decidable (SpecValid d) := by
  unfold SpecValid; infer_instance

/-- Run a sequence of `CompleteComponent` calls (each with its own supplied
timestamp), keeping the resulting graph. -/
def applyCalls (d : DAG) (calls : List (ComponentType × Nat)) : DAG :=
  calls.foldl (fun g c => (completeComponent g c.1 c.2).2) d

/-- A graph reachable from a specification-valid construction by some
sequence of `CompleteComponent` calls. -/
def ReachableFromValid (g : DAG) : Prop :=
  ∃ (g0 : DAG) (calls : List (ComponentType × Nat)),
    SpecValid g0 ∧ g = applyCalls g0 calls

theorem specValid_complete (d : DAG) (t : ComponentType) (now : Nat)
    (h : SpecValid d) : SpecValid ((completeComponent d t now).2) := by
  have hstruct := completeComponent_map_structure d t now
  constructor
  · rw [map_type_eq_of_structure hstruct]
    exact h.1
  · intro c' hc' u hu
    obtain ⟨c, hc, hty, hdeps⟩ := mem_structure_transfer hstruct hc'
    have hres := h.2 c hc u (by rw [hdeps]; exact hu)
    rw [getComponent_isSome_iff] at hres ⊢
    obtain ⟨c₀, hc₀, hty₀⟩ := hres
    obtain ⟨c₀', hc₀', hty₀', _⟩ := mem_structure_transfer hstruct.symm hc₀
    exact ⟨c₀', hc₀', by rw [hty₀', hty₀]⟩

theorem specValid_applyCalls (calls : List (ComponentType × Nat)) :
    ∀ d : DAG, SpecValid d → SpecValid (applyCalls d calls) := by
  induction calls with
  | nil => intro d h; exact h
  | cons c rest ih =>
      intro d h
      exact ih _ (specValid_complete d c.1 c.2 h)

theorem restoreOk_of_specValid (g : DAG) (h : SpecValid g) :
    restoreOk (snapshot g) :=
  h

/-- C8: for every graph reachable from a spec-valid construction by
`CompleteComponent` calls, restoring the snapshot record sequence succeeds
and yields a graph that answers `GetComponent`, `GetNextComponent` and
`AllComponentsCompleted` identically, and that under any subsequent sequence
of `CompleteComponent` calls (with the same supplied timestamps) reaches
exactly the same states, `UpdateTime` and `CompleteTime` values. -/
theorem snapshot_restore_roundtrip (g : DAG) (hg : ReachableFromValid g) :
    restore (snapshot g) = Except.ok g ∧
    (∀ g', restore (snapshot g) = Except.ok g' →
      (∀ t, getComponent g' t = getComponent g t) ∧
      getNextComponent g' = getNextComponent g ∧
      allComponentsCompleted g' = allComponentsCompleted g ∧
      ∀ calls : List (ComponentType × Nat),
        applyCalls g' calls = applyCalls g calls) := by
  obtain ⟨g0, calls, h0, rfl⟩ := hg
  have hok : restoreOk (snapshot (applyCalls g0 calls)) :=
    restoreOk_of_specValid _ (specValid_applyCalls calls g0 h0)
  constructor
  · unfold restore
    rw [if_pos hok]
    rfl
  · intro g' h'
    unfold restore at h'
    rw [if_pos hok] at h'
    obtain rfl : applyCalls g0 calls = g' := Except.ok.inj h'
    exact ⟨fun t => rfl, rfl, rfl, fun calls' => rfl⟩

/-- Witness for C8: the fresh pizza graph round-trips through
snapshot/restore. -/
theorem snapshot_restore_roundtrip_witness :
    restore (snapshot (newPizzaOrderDAG 0)) = Except.ok (newPizzaOrderDAG 0) :=
  (snapshot_restore_roundtrip (newPizzaOrderDAG 0)
    ⟨newPizzaOrderDAG 0, [], by decide, rfl⟩).1

end PizzaDag
